import Mathlib

/-!
Verification of the merged-epg pipeline (scripts/merge_epg.py).

The script is embedded shallowly:

* Python `datetime` instants on the UTC timeline are modelled as `Int`
  seconds counted from 0001-01-01T00:00:00 proleptic Gregorian (the same
  timeline `datetime.toordinal` uses, shifted to second granularity).
* `parse_xmltv_time` returns `Except Unit (Option Int)`: `Except.ok none`
  models Python `None` ("unparsable"), `Except.ok (some t)` a parsed UTC
  instant, and `Except.error ()` an uncaught Python exception
  (`ValueError` from `datetime.strptime`/`timezone`, or `OverflowError`
  from `astimezone`).
* The regex `(\d{14})(?:\s*([+\-]\d{4}|Z))?` used with `re.match` is
  unrolled by hand: the optional suffix group matches exactly when the
  maximal whitespace run after the 14-digit core is followed by `Z` or a
  sign and four digits, because the alternatives of the group start with
  non-whitespace characters, so backtracking over `\s*` can never help.
* The merge loop of `main` is a fold over an explicit accumulator record;
  each fetched source is either a parsed document or a fetch/parse
  failure (`Except String Doc`).
-/

namespace MergeEpg

/-- ASCII whitespace, as matched by the regex class `\s` on the
characters relevant here (space, tab, LF, CR, VT, FF). -/
def isPySpace (c : Char) : Bool :=
  c == ' ' || c == '\t' || c == '\n' || c == '\r' ||
    c == Char.ofNat 11 || c == Char.ofNat 12

/-- Numeric value of an ASCII digit character. -/
def digitVal (c : Char) : Nat := c.toNat - 48

/-- Value of a string of ASCII digits, most significant first
(the semantics of Python `int` on an all-digit string). -/
def digitsToNat (cs : List Char) : Nat :=
  cs.foldl (fun a c => 10 * a + digitVal c) 0

/-- Gregorian leap-year rule, as used by Python `datetime`. -/
def isLeap (y : Nat) : Bool :=
  (y % 4 == 0 && y % 100 != 0) || y % 400 == 0

/-- Length of month `m` in year `y` (Python `calendar`/`datetime` rule). -/
def daysInMonth (y m : Nat) : Nat :=
  if m == 2 then (if isLeap y then 29 else 28)
  else if m == 4 || m == 6 || m == 9 || m == 11 then 30
  else 31

/-- The calendar validation performed by
`datetime.strptime(_, "%Y%m%d%H%M%S")` on a 14-digit string followed by
the `datetime` constructor: month 1..12, day 1..days-in-month,
hour 0..23, minute and second 0..59, year at least `datetime.MINYEAR`.
Any 14-digit string failing this raises `ValueError` in Python. -/
def validDateTime (y mo d h mi s : Nat) : Bool :=
  decide (1 ≤ y) && decide (1 ≤ mo) && decide (mo ≤ 12) &&
  decide (1 ≤ d) && decide (d ≤ daysInMonth y mo) &&
  decide (h ≤ 23) && decide (mi ≤ 59) && decide (s ≤ 59)

/-- Number of leap years in `1..n` (proleptic Gregorian). -/
def leapsBefore (n : Nat) : Nat := n / 4 - n / 100 + n / 400

/-- Days strictly before January 1 of year `y`, counted from
0001-01-01 (day 0). -/
def daysBeforeYear (y : Nat) : Nat := (y - 1) * 365 + leapsBefore (y - 1)

/-- Days of year `y` strictly before month `m`. -/
def daysBeforeMonth (y m : Nat) : Nat :=
  (List.range (m - 1)).foldl (fun a i => a + daysInMonth y (i + 1)) 0

/-- Day number of the Gregorian date `y-m-d`, with 0001-01-01 as day 0
(this is Python `date.toordinal` minus one). -/
def rataDays (y m d : Nat) : Nat :=
  daysBeforeYear y + daysBeforeMonth y m + (d - 1)

/-- UTC instant of a Gregorian date-time, in seconds from
0001-01-01T00:00:00. -/
def toInstant (y mo d h mi s : Nat) : Int :=
  (rataDays y mo d : Int) * 86400 + h * 3600 + mi * 60 + s

/-- Smallest instant representable by Python `datetime`
(`datetime.min`, at second granularity). -/
def minInstant : Int := toInstant 1 1 1 0 0 0

/-- Largest instant representable by Python `datetime`
(`datetime.max`, at second granularity). -/
def maxInstant : Int := toInstant 9999 12 31 23 59 59

/-- Result of the optional suffix group `(?:\s*([+\-]\d{4}|Z))?`:
either the literal `Z` or a sign with four digit characters. -/
inductive TzSuffix where
  | z : TzSuffix
  | off (pos : Bool) (digits : List Char) : TzSuffix
deriving DecidableEq

/-- Match of the optional group against the text following the 14-digit
core: skip the maximal whitespace run, then require `Z` or a sign and
four digits; anything else leaves the group unmatched (`none`), which
still lets the whole regex match. -/
def tzOf (rest : List Char) : Option TzSuffix :=
  match rest.dropWhile isPySpace with
  | [] => none
  | c :: cs =>
    if c == 'Z' then some TzSuffix.z
    else if c == '+' || c == '-' then
      match cs with
      | d1 :: d2 :: d3 :: d4 :: _ =>
        if d1.isDigit && d2.isDigit && d3.isDigit && d4.isDigit then
          some (TzSuffix.off (c == '+') [d1, d2, d3, d4])
        else none
      | _ => none
    else none

/-- Result of `re.match` for the timestamp regex: the 14 captured digit
characters and the optional suffix group. -/
structure TsMatch where
  core : List Char
  tz : Option TzSuffix
deriving DecidableEq

/-- The regex `(\d{14})(?:\s*([+\-]\d{4}|Z))?` anchored at the start of
the input (`re.match`): it succeeds exactly when the first 14 characters
are digits; everything after the core is consumed only by the optional
suffix group, otherwise ignored. -/
def reMatchTs (cs : List Char) : Option TsMatch :=
  let core := cs.take 14
  if core.length == 14 && core.all Char.isDigit then
    some { core := core, tz := tzOf (cs.drop 14) }
  else none

/-- Calendar fields `(Y, M, D, h, m, s)` of a 14-digit core. -/
def coreFields (core : List Char) : Nat × Nat × Nat × Nat × Nat × Nat :=
  (digitsToNat (core.take 4),
   digitsToNat ((core.drop 4).take 2),
   digitsToNat ((core.drop 6).take 2),
   digitsToNat ((core.drop 8).take 2),
   digitsToNat ((core.drop 10).take 2),
   digitsToNat ((core.drop 12).take 2))

/-- Whether `datetime.strptime(core, "%Y%m%d%H%M%S")` succeeds. -/
def coreValid (core : List Char) : Bool :=
  match coreFields core with
  | (y, mo, d, h, mi, s) => validDateTime y mo d h mi s

/-- The instant denoted by a 14-digit core read as UTC. -/
def instantOfCore (core : List Char) : Int :=
  match coreFields core with
  | (y, mo, d, h, mi, s) => toInstant y mo d h mi s

/-- Signed offset in seconds of a `±HHMM` suffix:
`sign * (HH hours + MM minutes)`. -/
def offsetSeconds (pos : Bool) (ds : List Char) : Int :=
  (if pos then 1 else -1) *
    ((digitsToNat (ds.take 2) : Int) * 3600 + (digitsToNat (ds.drop 2) : Int) * 60)

/-- Python `timezone(timedelta(hours=HH, minutes=MM))` requires the
offset to be strictly less than 24 hours in magnitude; otherwise it
raises `ValueError`. -/
def offsetInRange (ds : List Char) : Bool :=
  decide (digitsToNat (ds.take 2) * 60 + digitsToNat (ds.drop 2) < 1440)

/-- Embedding of `parse_xmltv_time` from scripts/merge_epg.py.

Mirrors the Python control flow line by line: the empty-string guard,
`re.match` (returning `None` on failure), `datetime.strptime` on the
14-digit core (raising on calendar-invalid digits), and for a `±HHMM`
suffix the `timezone(...)` construction (raising when the offset is 24
hours or more) followed by `astimezone(timezone.utc)` (raising
`OverflowError` when the shifted instant leaves the representable
`datetime` range). With no suffix or suffix `Z` the core is returned as
a UTC instant unchanged. -/
def parse_xmltv_time (ts : String) : Except Unit (Option Int) :=
  if ts.data.isEmpty then Except.ok none
  else
    match reMatchTs ts.data with
    | none => Except.ok none
    | some m =>
      if coreValid m.core then
        match m.tz with
        | some (TzSuffix.off pos ds) =>
          if offsetInRange ds then
            let utc := instantOfCore m.core - offsetSeconds pos ds
            if decide (minInstant ≤ utc) && decide (utc ≤ maxInstant) then
              Except.ok (some utc)
            else Except.error ()
          else Except.error ()
        | _ => Except.ok (some (instantOfCore m.core))
      else Except.error ()

/-- Embedding of `intersects_window` from scripts/merge_epg.py.
Python `datetime` objects are always truthy and `None` is falsy, so the
`if not start_dt` tests are exactly `Option` case analysis. -/
def intersects_window (start_dt stop_dt : Option Int) (win_start win_end : Int) : Bool :=
  match start_dt, stop_dt with
  | none, none => true
  | none, some e => decide (win_start ≤ e)
  | some s, none => decide (s ≤ win_end)
  | some s, some e => decide (s ≤ win_end) && decide (win_start ≤ e)

/-- Modelled from the spec's words (section 4.2): the four-case window
policy, applied in order with the first matching case winning.  Written
independently of `intersects_window` so that the two can be compared. -/
def overlaps_spec (start stop : Option Int) (win_start win_end : Int) : Bool :=
  if start.isNone && stop.isNone then true
  else if start.isNone then stop.all (fun e => decide (win_start ≤ e))
  else if stop.isNone then start.all (fun s => decide (s ≤ win_end))
  else start.all (fun s => decide (s ≤ win_end)) &&
       stop.all (fun e => decide (win_start ≤ e))

/-- C1: for every pair of optional instants and every window,
`intersects_window` agrees with the spec's ordered four-case policy; in
particular with both instants present the programme is kept exactly when
`start ≤ win_end` and `stop ≥ win_start`. -/
theorem intersects_window_matches_spec_policy :
    ∀ (start stop : Option Int) (win_start win_end : Int),
      intersects_window start stop win_start win_end
        = overlaps_spec start stop win_start win_end ∧
      ∀ s e : Int,
        intersects_window (some s) (some e) win_start win_end
          = (decide (s ≤ win_end) && decide (win_start ≤ e)) := by
  intro start stop win_start win_end
  refine ⟨?_, fun s e => rfl⟩
  cases start <;> cases stop <;> simp [intersects_window, overlaps_spec]

/-- Dropping a satisfying prefix: `dropWhile` ignores a leading block of
elements that all satisfy the predicate. -/
theorem dropWhile_append_of_all {p : Char → Bool} :
    ∀ (l r : List Char), l.all p = true →
      (l ++ r).dropWhile p = r.dropWhile p
  | [], _, _ => rfl
  | a :: t, r, h => by
    simp only [List.all_cons, Bool.and_eq_true] at h
    simp [List.dropWhile_cons, h.1, dropWhile_append_of_all t r h.2]

/-- Nonempty lists are not `isEmpty`. -/
theorem isEmpty_eq_false_of_ne_nil {α : Type} {l : List α} (h : l ≠ []) :
    l.isEmpty = false := by
  cases l with
  | nil => exact absurd rfl h
  | cons a t => rfl

/-- C2: evaluation of `parse_xmltv_time` at the failing input
`"20251301000000"` (month 13).  The 14 digits match the regex, so the
code reaches `datetime.strptime`, which raises `ValueError`; the
exception is not caught anywhere in `parse_xmltv_time` or in the
programme loop of `main`, so the whole run aborts - contradicting the
spec's rule that digits failing basic calendar parsing yield
"unparsable" and never a fatal error. -/
theorem parse_xmltv_time_month13_raises :
    parse_xmltv_time "20251301000000" = Except.error () := rfl

/-- C3 counterexample: the claim quantifies over every signed 4-digit
offset, but at `"20250101000000 +2500"` (a valid calendar core with the
signed 4-digit suffix `+2500`) the code raises `ValueError` from
`timezone(timedelta(hours=25))` instead of returning a UTC instant. -/
theorem parse_xmltv_time_offset25_raises :
    parse_xmltv_time "20250101000000 +2500" = Except.error () := rfl

/-- C3 (amended): for every raw string made of a calendar-valid
14-digit core, optional whitespace and a signed 4-digit offset denoting
less than 24 hours, with the shifted instant inside the representable
`datetime` range, `parse_xmltv_time` interprets the core as local time
at the fixed offset and converts to UTC (subtracting for `+`, adding
for `-`); with no suffix, or suffix `Z`, the core is returned as
already UTC. -/
theorem parse_xmltv_time_offset_conversion
    (core wsp off4 : List Char) (pos : Bool)
    (hlen : core.length = 14) (hdig : core.all Char.isDigit = true)
    (hval : coreValid core = true)
    (hwsp : wsp.all isPySpace = true)
    (holen : off4.length = 4) (hodig : off4.all Char.isDigit = true)
    (horange : offsetInRange off4 = true)
    (hlow : minInstant ≤ instantOfCore core - offsetSeconds pos off4)
    (hhigh : instantOfCore core - offsetSeconds pos off4 ≤ maxInstant) :
    parse_xmltv_time ⟨core ++ wsp ++ (if pos then '+' else '-') :: off4⟩
        = Except.ok (some (instantOfCore core - offsetSeconds pos off4)) ∧
    parse_xmltv_time ⟨core⟩ = Except.ok (some (instantOfCore core)) ∧
    parse_xmltv_time ⟨core ++ wsp ++ ['Z']⟩
        = Except.ok (some (instantOfCore core)) := by
  obtain ⟨d1, d2, d3, d4, rfl⟩ : ∃ d1 d2 d3 d4, off4 = [d1, d2, d3, d4] := by
    match off4, holen with
    | [d1, d2, d3, d4], _ => exact ⟨d1, d2, d3, d4, rfl⟩
  obtain ⟨ho1, ho2, ho3, ho4⟩ :
      d1.isDigit = true ∧ d2.isDigit = true ∧ d3.isDigit = true ∧ d4.isDigit = true := by
    simpa using hodig
  have hsgn : isPySpace (if pos then '+' else '-') = false := by
    cases pos <;> rfl
  have hsgnz : ((if pos then '+' else '-') == 'Z') = false := by
    cases pos <;> rfl
  have hsgnpm : ((if pos then '+' else '-') == '+'
      || (if pos then '+' else '-') == '-') = true := by
    cases pos <;> rfl
  have hsgnp : ((if pos then '+' else '-') == '+') = pos := by
    cases pos <;> rfl
  have hcne : core ≠ [] := by
    intro h
    rw [h] at hlen
    simp at hlen
  have h14 : List.take 14 core = core := by
    rw [← hlen]; exact List.take_length _
  have hd14 : List.drop 14 core = [] := by
    rw [← hlen]; exact List.drop_length _
  have htz : tzOf (wsp ++ (if pos then '+' else '-') :: [d1, d2, d3, d4])
      = some (TzSuffix.off pos [d1, d2, d3, d4]) := by
    rw [tzOf, dropWhile_append_of_all wsp _ hwsp,
      List.dropWhile_cons_of_neg (by simp [hsgn])]
    cases pos <;> simp [ho1, ho2, ho3, ho4]
  have hmatch : reMatchTs (core ++ (wsp ++ (if pos then '+' else '-') :: [d1, d2, d3, d4]))
      = some ⟨core, some (TzSuffix.off pos [d1, d2, d3, d4])⟩ := by
    rw [reMatchTs]
    simp only [List.take_left' hlen, List.drop_left' hlen, hlen, hdig]
    simp [htz]
  have htzZ : tzOf (wsp ++ ['Z']) = some TzSuffix.z := by
    rw [tzOf, dropWhile_append_of_all wsp _ hwsp]
    rfl
  have hzmatch : reMatchTs (core ++ (wsp ++ ['Z']))
      = some ⟨core, some TzSuffix.z⟩ := by
    rw [reMatchTs]
    simp only [List.take_left' hlen, List.drop_left' hlen, hlen, hdig]
    simp [htzZ]
  have hcmatch : reMatchTs core = some ⟨core, none⟩ := by
    rw [reMatchTs]
    simp only [h14, hd14, hlen, hdig]
    simp [tzOf]
  refine ⟨?_, ?_, ?_⟩
  · rw [parse_xmltv_time]
    rw [List.append_assoc]
    simp only [isEmpty_eq_false_of_ne_nil (show core ++ (wsp ++ (if pos then '+' else '-') :: [d1, d2, d3, d4]) ≠ [] by simp [hcne]),
      Bool.false_eq_true, if_false, hmatch]
    rw [if_pos hval]
    rw [if_pos horange]
    rw [if_pos (show (decide (minInstant ≤ instantOfCore core - offsetSeconds pos [d1, d2, d3, d4])
        && decide (instantOfCore core - offsetSeconds pos [d1, d2, d3, d4] ≤ maxInstant)) = true by
      rw [decide_eq_true hlow, decide_eq_true hhigh]
      rfl)]
  · rw [parse_xmltv_time]
    simp only [isEmpty_eq_false_of_ne_nil hcne, Bool.false_eq_true, if_false, hcmatch]
    rw [if_pos hval]
  · rw [parse_xmltv_time]
    rw [List.append_assoc]
    simp only [isEmpty_eq_false_of_ne_nil (show core ++ (wsp ++ ['Z']) ≠ [] by simp [hcne]),
      Bool.false_eq_true, if_false, hzmatch]
    rw [if_pos hval]

/-- Witness for C3's amended theorem: `"20250101000000 -0500"` parses to
the UTC instant 2025-01-01T05:00:00Z. -/
theorem parse_xmltv_time_offset_conversion_witness :
    parse_xmltv_time ⟨"20250101000000".data ++ [' '] ++ (if false then '+' else '-') :: ['0', '5', '0', '0']⟩
        = Except.ok (some (instantOfCore "20250101000000".data - offsetSeconds false ['0', '5', '0', '0'])) ∧
    parse_xmltv_time "20250101000000 -0500" = Except.ok (some (toInstant 2025 1 1 5 0 0)) := by
  have h := parse_xmltv_time_offset_conversion "20250101000000".data [' ']
    ['0', '5', '0', '0'] false rfl rfl rfl rfl rfl rfl rfl (by decide) (by decide)
  exact ⟨h.1, h.1⟩

/-- C10 counterexample: `"20250132000000x"` begins with 14 digits, yet
`parse_xmltv_time` raises (`ValueError` for day 32) rather than
returning an instant, so the claim's universal "returns an instant" is
false as stated. -/
theorem parse_xmltv_time_day32_raises :
    parse_xmltv_time "20250132000000x" = Except.error () := rfl

/-- C10 (amended): for every input string beginning with 14 digits the
regex matches, so `parse_xmltv_time` never reports "unparsable"
(`Except.ok none`); and whenever the 14-digit core additionally passes
calendar validation and the text after it does not match the optional
whitespace-then-`Z`-or-signed-4-digit-offset group, the trailing text is
silently ignored and the core is returned interpreted as UTC. -/
theorem parse_xmltv_time_trailing_text
    (s : String)
    (hlen : (s.data.take 14).length = 14)
    (hdig : (s.data.take 14).all Char.isDigit = true) :
    parse_xmltv_time s ≠ Except.ok none ∧
    (coreValid (s.data.take 14) = true → tzOf (s.data.drop 14) = none →
      parse_xmltv_time s = Except.ok (some (instantOfCore (s.data.take 14)))) := by
  have hne : s.data.isEmpty = false := by
    cases h : s.data with
    | nil => rw [h] at hlen; simp at hlen
    | cons a t => rfl
  have hmatch : reMatchTs s.data
      = some ⟨s.data.take 14, tzOf (s.data.drop 14)⟩ := by
    rw [reMatchTs]
    simp [hlen, hdig]
  constructor
  · rw [parse_xmltv_time]
    simp only [hne, Bool.false_eq_true, if_false, hmatch]
    repeat' split
    all_goals simp
  · intro hv htz
    rw [parse_xmltv_time]
    simp only [hne, Bool.false_eq_true, if_false, hmatch, htz]
    rw [if_pos hv]

/-- Witness for C10's amended theorem at `"20250101000000garbage"`: the
trailing text is ignored and the core parses as UTC. -/
theorem parse_xmltv_time_trailing_text_witness :
    parse_xmltv_time "20250101000000garbage" ≠ Except.ok none ∧
    parse_xmltv_time "20250101000000garbage"
      = Except.ok (some (instantOfCore ("20250101000000garbage".data.take 14))) := by
  have h := parse_xmltv_time_trailing_text "20250101000000garbage" rfl rfl
  exact ⟨h.1, h.2 rfl rfl⟩

/-- A `channel` element: the `id` attribute (absent modelled as `none`)
and an opaque bag of further attributes and child content, passed
through unchanged by the script. -/
structure Channel where
  id : Option String
  payload : String
deriving DecidableEq

/-- A `programme` element: the `channel`, `start` and `stop` attributes,
the text of the optional `title` child, and an opaque payload for
everything else. -/
structure Programme where
  channel : Option String
  start : Option String
  stop : Option String
  title : Option String
  payload : String
deriving DecidableEq

/-- A parsed source document: the `channel` children of the root in
document order, and the `programme` children in document order
(`root.findall` returns direct children of one tag in document order). -/
structure Doc where
  channels : List Channel
  programmes : List Programme
deriving DecidableEq

/-- Effective channel id, `ch.get("id") or ""`. -/
def chanKey (c : Channel) : String := c.id.getD ""

/-- Raw start attribute, `pr.get("start") or ""`. -/
def startRaw (p : Programme) : String := p.start.getD ""

/-- Raw stop attribute, `pr.get("stop") or ""`. -/
def stopRaw (p : Programme) : String := p.stop.getD ""

/-- Raw channel attribute of a programme, `pr.get("channel") or ""`. -/
def chanRaw (p : Programme) : String := p.channel.getD ""

/-- Python `str.strip()` on the relevant whitespace characters. -/
def pyStrip (s : String) : String :=
  ⟨((s.data.dropWhile isPySpace).reverse.dropWhile isPySpace).reverse⟩

/-- Trimmed title, `(pr.findtext("title") or "").strip()`. -/
def titleKey (p : Programme) : String := pyStrip (p.title.getD "")

/-- The programme dedup key
`(ch, start_s, stop_s, title_text)` - exact raw strings for the
timestamps, whitespace-trimmed text for the title. -/
abbrev ProgKey := String × String × String × String

/-- Dedup key of a programme. -/
def progKey (p : Programme) : ProgKey :=
  (chanRaw p, startRaw p, stopRaw p, titleKey p)

/-- The state of the merge loop in `main`: the `channel` and
`programme` children appended to `tv_root` so far (insertion order),
the `channel_ids_seen` and `programme_keys_seen` sets (modelled as
lists, queried by membership), and the warnings printed for failed
sources. -/
structure Acc where
  channels : List Channel
  programmes : List Programme
  channel_ids_seen : List String
  programme_keys_seen : List ProgKey
  warnings : List String
deriving DecidableEq

/-- Initial accumulator: empty `tv_root` and empty seen-sets. -/
def initAcc : Acc := ⟨[], [], [], [], []⟩

/-- One iteration of the channel loop: compute the effective id; if
unseen, mark it seen and append the element unchanged, else discard. -/
def processChannel (acc : Acc) (ch : Channel) : Acc :=
  if chanKey ch ∈ acc.channel_ids_seen then acc
  else { acc with
    channel_ids_seen := chanKey ch :: acc.channel_ids_seen,
    channels := acc.channels ++ [ch] }

/-- The two `parse_xmltv_time` calls of the programme loop, sequenced:
an exception in either aborts the run (`Except.error`), otherwise the
window test is evaluated on the parsed optional instants. -/
def windowVerdict (ws we : Int) (p : Programme) : Except Unit Bool :=
  match parse_xmltv_time (startRaw p) with
  | Except.error e => Except.error e
  | Except.ok sdt =>
    match parse_xmltv_time (stopRaw p) with
    | Except.error e => Except.error e
    | Except.ok edt => Except.ok (intersects_window sdt edt ws we)

/-- One iteration of the programme loop: parse both timestamps, drop
the record if the window test fails, otherwise keep it exactly when its
dedup key is new, marking the key seen. -/
def processProgramme (ws we : Int) (acc : Acc) (p : Programme) : Except Unit Acc :=
  match windowVerdict ws we p with
  | Except.error e => Except.error e
  | Except.ok false => Except.ok acc
  | Except.ok true =>
    if progKey p ∈ acc.programme_keys_seen then Except.ok acc
    else Except.ok { acc with
      programme_keys_seen := progKey p :: acc.programme_keys_seen,
      programmes := acc.programmes ++ [p] }

/-- The programme loop over a document's programmes. -/
def processProgs (ws we : Int) (acc : Acc) : List Programme → Except Unit Acc
  | [] => Except.ok acc
  | p :: ps =>
    match processProgramme ws we acc p with
    | Except.error e => Except.error e
    | Except.ok acc' => processProgs ws we acc' ps

/-- Processing one successfully fetched document: the channel loop,
then the programme loop. -/
def processDoc (ws we : Int) (acc : Acc) (doc : Doc) : Except Unit Acc :=
  processProgs ws we (doc.channels.foldl processChannel acc) doc.programmes

/-- The warning `main` prints to stderr for a failed source. -/
def warnMsg (url msg : String) : String :=
  "Failed to fetch " ++ url ++ ": " ++ msg

/-- A configured source: its URL and the outcome of
`fetch_xml` (a parsed document, or the exception message of a fetch,
decompression or parse failure). -/
abbrev Source := String × Except String Doc

/-- One iteration of the source loop of `main`: a failed fetch/parse is
caught by the `try`/`except`, recorded as a warning and skipped; a
parsed document is merged. -/
def processSource (ws we : Int) (acc : Acc) (src : Source) : Except Unit Acc :=
  match src.2 with
  | Except.error e =>
    Except.ok { acc with warnings := acc.warnings ++ [warnMsg src.1 e] }
  | Except.ok doc => processDoc ws we acc doc

/-- The source loop of `main`, from a given accumulator. -/
def mergeFrom (ws we : Int) (acc : Acc) : List Source → Except Unit Acc
  | [] => Except.ok acc
  | s :: rest =>
    match processSource ws we acc s with
    | Except.error e => Except.error e
    | Except.ok acc' => mergeFrom ws we acc' rest

/-- The whole merge loop of `main` over the configured source list, for
a fixed window `[ws, we]`. -/
def runMerge (ws we : Int) (srcs : List Source) : Except Unit Acc :=
  mergeFrom ws we initAcc srcs

/-- The documents of the sources that fetched and parsed successfully,
in configured order. -/
def docsOf : List Source → List Doc
  | [] => []
  | s :: rest =>
    match s.2 with
    | Except.error _ => docsOf rest
    | Except.ok d => d :: docsOf rest

/-- All channel elements offered to the merge loop, in source-list then
document order. -/
def chansOfDocs : List Doc → List Channel
  | [] => []
  | d :: ds => d.channels ++ chansOfDocs ds

/-- All programme elements offered to the merge loop, in source-list
then document order. -/
def progsOfDocs : List Doc → List Programme
  | [] => []
  | d :: ds => d.programmes ++ progsOfDocs ds

/-- Channels of the successfully parsed sources, in encounter order. -/
def allChannels (srcs : List Source) : List Channel := chansOfDocs (docsOf srcs)

/-- Programmes of the successfully parsed sources, in encounter
order. -/
def allProgrammes (srcs : List Source) : List Programme := progsOfDocs (docsOf srcs)

/-- Whether a programme passes the window filter (`false` also when a
timestamp parse raises; that case aborts the run instead of producing
an accumulator, so it never contributes to a completed run). -/
def keepTest (ws we : Int) (p : Programme) : Bool :=
  match windowVerdict ws we p with
  | Except.ok b => b
  | Except.error _ => false

/-- Comparison key order used by `channels.sort(key=...)`: the
effective id, under Python string comparison (code-point
lexicographic, which is what Lean `String` order is). -/
def chanLE (a b : Channel) : Bool := decide (chanKey a ≤ chanKey b)

/-- Comparison key order used by `programmes.sort(key=...)`: the raw
start-time string. -/
def progLE (a b : Programme) : Bool := decide (startRaw a ≤ startRaw b)

/-- The channel list after the stable `list.sort` of the
Canonicalizer. -/
def sortedChannels (acc : Acc) : List Channel := acc.channels.mergeSort chanLE

/-- The programme list after the stable `list.sort` of the
Canonicalizer. -/
def sortedProgrammes (acc : Acc) : List Programme := acc.programmes.mergeSort progLE

/-- A child of the final `tv` root element. -/
inductive TvElem where
  | ch (c : Channel) : TvElem
  | pr (p : Programme) : TvElem
deriving DecidableEq

/-- The Canonicalizer: remove all children, re-append sorted channels,
then sorted programmes.  The final document order is all channels
(sorted by id) followed by all programmes (sorted by raw start). -/
def canonicalize (acc : Acc) : List TvElem :=
  (sortedChannels acc).map TvElem.ch ++ (sortedProgrammes acc).map TvElem.pr

/-- The channels with a given effective id, in order. -/
def chanFilter (i : String) (cs : List Channel) : List Channel :=
  cs.filter fun c => decide (chanKey c = i)

/-- Taking one element from an append whose left part is nonempty. -/
theorem take_one_append_left {α : Type} {l : List α} (r : List α) (h : l ≠ []) :
    (l ++ r).take 1 = l.take 1 := by
  cases l with
  | nil => exact absurd rfl h
  | cons a t => rfl

/-- Filter of a one-element channel list. -/
theorem chanFilter_singleton (i : String) (ch : Channel) :
    chanFilter i [ch] = if chanKey ch = i then [ch] else [] := by
  simp [chanFilter, List.filter_cons]

/-- Filter distributes over channel-list append. -/
theorem chanFilter_append (i : String) (l r : List Channel) :
    chanFilter i (l ++ r) = chanFilter i l ++ chanFilter i r := by
  simp [chanFilter]

/-- One step of the channel loop maintains the first-seen-wins
invariant: the kept channels with id `i` are the first of the offered
channels with id `i`, and the seen-set records exactly the ids offered
so far. -/
theorem processChannel_inv {acc : Acc} {past : List Channel} (ch : Channel)
    (h1 : ∀ i, chanFilter i acc.channels = (chanFilter i past).take 1)
    (h2 : ∀ i, i ∈ acc.channel_ids_seen ↔ chanFilter i past ≠ []) :
    (∀ i, chanFilter i (processChannel acc ch).channels
        = (chanFilter i (past ++ [ch])).take 1) ∧
    (∀ i, i ∈ (processChannel acc ch).channel_ids_seen
        ↔ chanFilter i (past ++ [ch]) ≠ []) := by
  by_cases hmem : chanKey ch ∈ acc.channel_ids_seen
  · rw [processChannel, if_pos hmem]
    constructor
    · intro i
      rw [chanFilter_append, chanFilter_singleton]
      by_cases hik : chanKey ch = i
      · have hne : chanFilter i past ≠ [] := (h2 i).mp (hik ▸ hmem)
        rw [take_one_append_left _ hne, h1 i]
      · rw [if_neg hik, List.append_nil, h1 i]
    · intro i
      rw [chanFilter_append, chanFilter_singleton]
      by_cases hik : chanKey ch = i
      · simp only [if_pos hik]
        constructor
        · intro _
          simp
        · intro _
          exact hik ▸ hmem
      · rw [if_neg hik, List.append_nil]
        exact h2 i
  · rw [processChannel, if_neg hmem]
    constructor
    · intro i
      rw [chanFilter_append, chanFilter_singleton, chanFilter_append,
        chanFilter_singleton]
      by_cases hik : chanKey ch = i
      · have hpast : chanFilter i past = [] := by
          by_contra hne
          exact hmem (hik ▸ ((h2 i).mpr hne))
        rw [if_pos hik, hpast, h1 i, hpast]
        rfl
      · rw [if_neg hik, List.append_nil, List.append_nil]
        exact h1 i
    · intro i
      simp only [List.mem_cons]
      rw [chanFilter_append, chanFilter_singleton]
      by_cases hik : chanKey ch = i
      · simp [hik]
      · simp only [if_neg hik, List.append_nil]
        constructor
        · intro hmo
          cases hmo with
          | inl hl => exact absurd hl.symm hik
          | inr hr => exact (h2 i).mp hr
        · intro hne
          exact Or.inr ((h2 i).mpr hne)

/-- The whole channel loop maintains the first-seen-wins invariant. -/
theorem foldl_processChannel_inv :
    ∀ (cs : List Channel) (acc : Acc) (past : List Channel),
      (∀ i, chanFilter i acc.channels = (chanFilter i past).take 1) →
      (∀ i, i ∈ acc.channel_ids_seen ↔ chanFilter i past ≠ []) →
      (∀ i, chanFilter i (cs.foldl processChannel acc).channels
          = (chanFilter i (past ++ cs)).take 1) ∧
      (∀ i, i ∈ (cs.foldl processChannel acc).channel_ids_seen
          ↔ chanFilter i (past ++ cs) ≠ [])
  | [], acc, past, h1, h2 => by
    simpa using ⟨h1, h2⟩
  | ch :: cs, acc, past, h1, h2 => by
    have hstep := processChannel_inv ch h1 h2
    have ih := foldl_processChannel_inv cs (processChannel acc ch)
      (past ++ [ch]) hstep.1 hstep.2
    simpa [List.append_assoc] using ih

/-- One step of the programme loop never touches the channel list or
the seen channel ids. -/
theorem processProgramme_channels {ws we : Int} {acc acc' : Acc} {p : Programme}
    (h : processProgramme ws we acc p = Except.ok acc') :
    acc'.channels = acc.channels ∧
    acc'.channel_ids_seen = acc.channel_ids_seen := by
  unfold processProgramme at h
  split at h
  · exact absurd h (by simp)
  · simp only [Except.ok.injEq] at h
    subst h
    exact ⟨rfl, rfl⟩
  · split at h <;> simp only [Except.ok.injEq] at h <;> subst h
    · exact ⟨rfl, rfl⟩
    · exact ⟨rfl, rfl⟩

/-- The programme loop never touches the channel list or the seen
channel ids. -/
theorem processProgs_channels (ws we : Int) :
    ∀ {ps : List Programme} {acc acc' : Acc},
      processProgs ws we acc ps = Except.ok acc' →
      acc'.channels = acc.channels ∧
      acc'.channel_ids_seen = acc.channel_ids_seen
  | [], acc, acc', h => by
    simp only [processProgs, Except.ok.injEq] at h
    subst h
    exact ⟨rfl, rfl⟩
  | p :: ps, acc, acc', h => by
    rw [processProgs] at h
    split at h
    · exact absurd h (by simp)
    · rename_i acc₁ h₁
      have hp := processProgramme_channels h₁
      have ih := processProgs_channels ws we h
      exact ⟨ih.1.trans hp.1, ih.2.trans hp.2⟩

/-- The source loop maintains the first-seen-wins channel invariant
against the stream of all channels offered by the parsed documents. -/
theorem mergeFrom_chanInv (ws we : Int) :
    ∀ (srcs : List Source) (acc acc' : Acc) (past : List Channel),
      mergeFrom ws we acc srcs = Except.ok acc' →
      (∀ i, chanFilter i acc.channels = (chanFilter i past).take 1) →
      (∀ i, i ∈ acc.channel_ids_seen ↔ chanFilter i past ≠ []) →
      (∀ i, chanFilter i acc'.channels
          = (chanFilter i (past ++ allChannels srcs)).take 1) ∧
      (∀ i, i ∈ acc'.channel_ids_seen
          ↔ chanFilter i (past ++ allChannels srcs) ≠ [])
  | [], acc, acc', past, h, h1, h2 => by
    simp only [mergeFrom, Except.ok.injEq] at h
    subst h
    simpa [allChannels, docsOf, chansOfDocs] using ⟨h1, h2⟩
  | ⟨url, Except.error e⟩ :: rest, acc, acc', past, h, h1, h2 => by
    rw [mergeFrom] at h
    simp only [processSource] at h
    have ih := mergeFrom_chanInv ws we rest _ acc' past h h1 h2
    simpa [allChannels, docsOf] using ih
  | ⟨url, Except.ok doc⟩ :: rest, acc, acc', past, h, h1, h2 => by
    rw [mergeFrom] at h
    simp only [processSource] at h
    split at h
    · exact absurd h (by simp)
    · rename_i accD hD
      rw [processDoc] at hD
      have hfold := foldl_processChannel_inv doc.channels acc past h1 h2
      have hpres := processProgs_channels ws we hD
      have h1D : ∀ i, chanFilter i accD.channels
          = (chanFilter i (past ++ doc.channels)).take 1 := by
        intro i
        rw [hpres.1]
        exact hfold.1 i
      have h2D : ∀ i, i ∈ accD.channel_ids_seen
          ↔ chanFilter i (past ++ doc.channels) ≠ [] := by
        intro i
        rw [hpres.2]
        exact hfold.2 i
      have ih := mergeFrom_chanInv ws we rest accD acc'
        (past ++ doc.channels) h h1D h2D
      simpa [allChannels, docsOf, chansOfDocs, List.append_assoc] using ih

/-- Stability of `mergeSort` phrased through filters: a filter whose
satisfying elements are pairwise related by the sort order is unchanged
by sorting. -/
theorem filter_mergeSort_eq {α : Type} (le : α → α → Bool)
    (trans : ∀ (a b c : α), le a b → le b c → le a c)
    (total : ∀ (a b : α), le a b || le b a)
    (p : α → Bool)
    (hp : ∀ a b, p a = true → p b = true → le a b = true)
    (l : List α) :
    (l.mergeSort le).filter p = l.filter p := by
  have hpw : (l.filter p).Pairwise (fun a b => le a b = true) := by
    apply List.pairwise_of_forall_mem_list
    intro a ha b hb
    exact hp a b (List.of_mem_filter ha) (List.of_mem_filter hb)
  have hsub : List.Sublist (l.filter p) ((l.mergeSort le).filter p) := by
    have h1 : List.Sublist (l.filter p) (l.mergeSort le) :=
      List.sublist_mergeSort trans total hpw (List.filter_sublist l)
    have h2 := h1.filter p
    rwa [List.filter_filter, show ((fun a => p a && p a) = p) by
      funext a
      exact Bool.and_self (p a)] at h2
  have hperm : List.Perm ((l.mergeSort le).filter p) (l.filter p) :=
    (List.mergeSort_perm l le).filter p
  exact (hsub.eq_of_length hperm.length_eq.symm).symm

/-- The channel order is transitive. -/
theorem chanLE_trans : ∀ (a b c : Channel), chanLE a b → chanLE b c → chanLE a c := by
  intro a b c hab hbc
  simp only [chanLE, decide_eq_true_eq] at *
  exact le_trans hab hbc

/-- The channel order is total. -/
theorem chanLE_total : ∀ (a b : Channel), chanLE a b || chanLE b a := by
  intro a b
  simp only [chanLE]
  rcases le_total (chanKey a) (chanKey b) with h | h <;> simp [h]

/-- The programme order is transitive. -/
theorem progLE_trans : ∀ (a b c : Programme), progLE a b → progLE b c → progLE a c := by
  intro a b c hab hbc
  simp only [progLE, decide_eq_true_eq] at *
  exact le_trans hab hbc

/-- The programme order is total. -/
theorem progLE_total : ∀ (a b : Programme), progLE a b || progLE b a := by
  intro a b
  simp only [progLE]
  rcases le_total (startRaw a) (startRaw b) with h | h <;> simp [h]

/-- C4: in every completed run, for every id `i`, the kept channels
with effective id `i` (missing `id` attribute counting as the empty
string) are exactly the first channel with that id offered across the
successfully parsed sources in source-list then document order, kept
unchanged; this holds both for the accumulator and after the final
sort, so the output has at most one channel per id and later same-id
channels are discarded, never merged. -/
theorem channel_dedup_first_wins (ws we : Int) (srcs : List Source) (acc : Acc)
    (h : runMerge ws we srcs = Except.ok acc) (i : String) :
    acc.channels.filter (fun c => decide (chanKey c = i))
      = ((allChannels srcs).filter (fun c => decide (chanKey c = i))).take 1 ∧
    (sortedChannels acc).filter (fun c => decide (chanKey c = i))
      = ((allChannels srcs).filter (fun c => decide (chanKey c = i))).take 1 := by
  have hinv := mergeFrom_chanInv ws we srcs initAcc acc [] h
    (by intro j; rfl) (by intro j; simp [initAcc, chanFilter])
  have hacc : chanFilter i acc.channels = (chanFilter i (allChannels srcs)).take 1 := by
    simpa using hinv.1 i
  refine ⟨hacc, ?_⟩
  have hsorted : (sortedChannels acc).filter (fun c => decide (chanKey c = i))
      = acc.channels.filter (fun c => decide (chanKey c = i)) := by
    apply filter_mergeSort_eq chanLE chanLE_trans chanLE_total
    intro a b ha hb
    simp only [decide_eq_true_eq] at ha hb
    simp [chanLE, ha, hb]
  rw [hsorted]
  exact hacc

/-- The kept programmes with a given dedup key, in order. -/
def progFilter (k : ProgKey) (ps : List Programme) : List Programme :=
  ps.filter fun p => decide (progKey p = k)

/-- The offered programmes with a given dedup key that pass the window
test, in order. -/
def progKeepFilter (ws we : Int) (k : ProgKey) (ps : List Programme) : List Programme :=
  ps.filter fun p => decide (progKey p = k) && keepTest ws we p

/-- Filter of a one-element programme list by key. -/
theorem progFilter_singleton (k : ProgKey) (p : Programme) :
    progFilter k [p] = if progKey p = k then [p] else [] := by
  simp [progFilter, List.filter_cons]

/-- Key filter distributes over append. -/
theorem progFilter_append (k : ProgKey) (l r : List Programme) :
    progFilter k (l ++ r) = progFilter k l ++ progFilter k r := by
  simp [progFilter]

/-- Keep filter of a one-element programme list. -/
theorem progKeepFilter_singleton (ws we : Int) (k : ProgKey) (p : Programme) :
    progKeepFilter ws we k [p]
      = if progKey p = k ∧ keepTest ws we p = true then [p] else [] := by
  simp only [progKeepFilter, List.filter_cons, List.filter_nil]
  by_cases h1 : progKey p = k <;> by_cases h2 : keepTest ws we p = true <;>
    simp [h1, h2]

/-- Keep filter distributes over append. -/
theorem progKeepFilter_append (ws we : Int) (k : ProgKey) (l r : List Programme) :
    progKeepFilter ws we k (l ++ r)
      = progKeepFilter ws we k l ++ progKeepFilter ws we k r := by
  simp [progKeepFilter]

/-- One step of the programme loop maintains the first-passing-wins
invariant: the kept programmes with key `k` are the first offered
window-passing programme with key `k`, and the seen-key set records
exactly the keys of window-passing programmes offered so far. -/
theorem processProgramme_inv {ws we : Int} {acc acc' : Acc}
    {past : List Programme} {p : Programme}
    (h : processProgramme ws we acc p = Except.ok acc')
    (h1 : ∀ k, progFilter k acc.programmes = (progKeepFilter ws we k past).take 1)
    (h2 : ∀ k, k ∈ acc.programme_keys_seen ↔ progKeepFilter ws we k past ≠ []) :
    (∀ k, progFilter k acc'.programmes
        = (progKeepFilter ws we k (past ++ [p])).take 1) ∧
    (∀ k, k ∈ acc'.programme_keys_seen
        ↔ progKeepFilter ws we k (past ++ [p]) ≠ []) := by
  unfold processProgramme at h
  split at h
  · exact absurd h (by simp)
  · rename_i hv
    simp only [Except.ok.injEq] at h
    subst h
    have hkeep : keepTest ws we p = false := by
      unfold keepTest
      rw [hv]
    constructor
    · intro k
      rw [progKeepFilter_append, progKeepFilter_singleton]
      simp [hkeep, h1 k]
    · intro k
      rw [progKeepFilter_append, progKeepFilter_singleton]
      simp [hkeep, h2 k]
  · rename_i hv
    have hkeep : keepTest ws we p = true := by
      unfold keepTest
      rw [hv]
    split at h
    · rename_i hmem
      simp only [Except.ok.injEq] at h
      subst h
      constructor
      · intro k
        rw [progKeepFilter_append, progKeepFilter_singleton]
        by_cases hpk : progKey p = k
        · have hne : progKeepFilter ws we k past ≠ [] := (h2 k).mp (hpk ▸ hmem)
          rw [take_one_append_left _ hne, h1 k]
        · simp [hpk, h1 k]
      · intro k
        rw [progKeepFilter_append, progKeepFilter_singleton]
        by_cases hpk : progKey p = k
        · have hm : k ∈ acc.programme_keys_seen := hpk ▸ hmem
          simp [hpk, hkeep, hm]
        · simp [hpk, h2 k]
    · rename_i hmem
      simp only [Except.ok.injEq] at h
      subst h
      constructor
      · intro k
        show progFilter k (acc.programmes ++ [p]) = _
        rw [progFilter_append, progFilter_singleton,
          progKeepFilter_append, progKeepFilter_singleton]
        by_cases hpk : progKey p = k
        · have hpast : progKeepFilter ws we k past = [] := by
            by_contra hne
            exact hmem (hpk ▸ (h2 k).mpr hne)
          simp [hpk, hkeep, hpast, h1 k]
        · simp [hpk, h1 k]
      · intro k
        show k ∈ progKey p :: acc.programme_keys_seen ↔ _
        rw [progKeepFilter_append, progKeepFilter_singleton]
        by_cases hpk : progKey p = k
        · simp [List.mem_cons, hpk, hkeep]
        · have hcond : ¬(progKey p = k ∧ keepTest ws we p = true) := fun hc => hpk hc.1
          simp only [List.mem_cons, if_neg hcond, List.append_nil]
          constructor
          · intro hmo
            cases hmo with
            | inl hl => exact absurd hl.symm hpk
            | inr hr => exact (h2 k).mp hr
          · intro hne
            exact Or.inr ((h2 k).mpr hne)

/-- The whole programme loop maintains the first-passing-wins
invariant. -/
theorem processProgs_inv (ws we : Int) :
    ∀ (ps : List Programme) (acc acc' : Acc) (past : List Programme),
      processProgs ws we acc ps = Except.ok acc' →
      (∀ k, progFilter k acc.programmes = (progKeepFilter ws we k past).take 1) →
      (∀ k, k ∈ acc.programme_keys_seen ↔ progKeepFilter ws we k past ≠ []) →
      (∀ k, progFilter k acc'.programmes
          = (progKeepFilter ws we k (past ++ ps)).take 1) ∧
      (∀ k, k ∈ acc'.programme_keys_seen
          ↔ progKeepFilter ws we k (past ++ ps) ≠ [])
  | [], acc, acc', past, h, h1, h2 => by
    simp only [processProgs, Except.ok.injEq] at h
    subst h
    refine ⟨fun k => ?_, fun k => ?_⟩
    · rw [List.append_nil]
      exact h1 k
    · rw [List.append_nil]
      exact h2 k
  | p :: ps, acc, acc', past, h, h1, h2 => by
    rw [processProgs] at h
    split at h
    · exact absurd h (by simp)
    · rename_i acc₁ h₁
      have hstep := processProgramme_inv h₁ h1 h2
      have ih := processProgs_inv ws we ps acc₁ acc' (past ++ [p]) h hstep.1 hstep.2
      refine ⟨fun k => ?_, fun k => ?_⟩
      · rw [show past ++ p :: ps = (past ++ [p]) ++ ps by simp]
        exact ih.1 k
      · rw [show past ++ p :: ps = (past ++ [p]) ++ ps by simp]
        exact ih.2 k

/-- The channel loop never touches the programme list or the seen
programme keys. -/
theorem foldl_processChannel_programmes :
    ∀ (cs : List Channel) (acc : Acc),
      (cs.foldl processChannel acc).programmes = acc.programmes ∧
      (cs.foldl processChannel acc).programme_keys_seen = acc.programme_keys_seen
  | [], acc => ⟨rfl, rfl⟩
  | ch :: cs, acc => by
    have hstep : (processChannel acc ch).programmes = acc.programmes ∧
        (processChannel acc ch).programme_keys_seen = acc.programme_keys_seen := by
      unfold processChannel
      split <;> exact ⟨rfl, rfl⟩
    have ih := foldl_processChannel_programmes cs (processChannel acc ch)
    exact ⟨ih.1.trans hstep.1, ih.2.trans hstep.2⟩

/-- The source loop maintains the first-passing-wins programme
invariant against the stream of all programmes offered by the parsed
documents. -/
theorem mergeFrom_progInv (ws we : Int) :
    ∀ (srcs : List Source) (acc acc' : Acc) (past : List Programme),
      mergeFrom ws we acc srcs = Except.ok acc' →
      (∀ k, progFilter k acc.programmes = (progKeepFilter ws we k past).take 1) →
      (∀ k, k ∈ acc.programme_keys_seen ↔ progKeepFilter ws we k past ≠ []) →
      (∀ k, progFilter k acc'.programmes
          = (progKeepFilter ws we k (past ++ allProgrammes srcs)).take 1) ∧
      (∀ k, k ∈ acc'.programme_keys_seen
          ↔ progKeepFilter ws we k (past ++ allProgrammes srcs) ≠ [])
  | [], acc, acc', past, h, h1, h2 => by
    simp only [mergeFrom, Except.ok.injEq] at h
    subst h
    refine ⟨fun k => ?_, fun k => ?_⟩
    · rw [show past ++ allProgrammes [] = past by simp [allProgrammes, docsOf, progsOfDocs]]
      exact h1 k
    · rw [show past ++ allProgrammes [] = past by simp [allProgrammes, docsOf, progsOfDocs]]
      exact h2 k
  | ⟨url, Except.error e⟩ :: rest, acc, acc', past, h, h1, h2 => by
    rw [mergeFrom] at h
    simp only [processSource] at h
    exact mergeFrom_progInv ws we rest _ acc' past h h1 h2
  | ⟨url, Except.ok doc⟩ :: rest, acc, acc', past, h, h1, h2 => by
    rw [mergeFrom] at h
    simp only [processSource] at h
    split at h
    · exact absurd h (by simp)
    · rename_i accD hD
      rw [processDoc] at hD
      have hpres := foldl_processChannel_programmes doc.channels acc
      have hmid := processProgs_inv ws we doc.programmes _ accD past hD
        (by intro k; rw [hpres.1]; exact h1 k)
        (by intro k; rw [hpres.2]; exact h2 k)
      have ih := mergeFrom_progInv ws we rest accD acc'
        (past ++ doc.programmes) h hmid.1 hmid.2
      refine ⟨fun k => ?_, fun k => ?_⟩
      · rw [show past ++ allProgrammes ((url, Except.ok doc) :: rest)
            = (past ++ doc.programmes) ++ allProgrammes rest by
          simp [allProgrammes, docsOf, progsOfDocs]]
        exact ih.1 k
      · rw [show past ++ allProgrammes ((url, Except.ok doc) :: rest)
            = (past ++ doc.programmes) ++ allProgrammes rest by
          simp [allProgrammes, docsOf, progsOfDocs]]
        exact ih.2 k

/-- C5: in every completed run, for every dedup key `k` (channel id and
exact raw start/stop strings plus trimmed title), the kept programmes
with key `k` are exactly the first window-passing programme offered
with that key - so the output has at most one programme per key;
programmes denoting the same instant with different raw strings have
different keys and are deduplicated independently.  This holds both for
the accumulator and after the final sort. -/
theorem programme_dedup_first_wins (ws we : Int) (srcs : List Source) (acc : Acc)
    (h : runMerge ws we srcs = Except.ok acc) (k : ProgKey) :
    acc.programmes.filter (fun p => decide (progKey p = k))
      = ((allProgrammes srcs).filter
          (fun p => decide (progKey p = k) && keepTest ws we p)).take 1 ∧
    (sortedProgrammes acc).filter (fun p => decide (progKey p = k))
      = ((allProgrammes srcs).filter
          (fun p => decide (progKey p = k) && keepTest ws we p)).take 1 := by
  have hinv := mergeFrom_progInv ws we srcs initAcc acc [] h
    (by intro j; rfl) (by intro j; simp [initAcc, progKeepFilter])
  have hacc : progFilter k acc.programmes
      = (progKeepFilter ws we k (allProgrammes srcs)).take 1 := by
    simpa using hinv.1 k
  refine ⟨hacc, ?_⟩
  have hsorted : (sortedProgrammes acc).filter (fun p => decide (progKey p = k))
      = acc.programmes.filter (fun p => decide (progKey p = k)) := by
    apply filter_mergeSort_eq progLE progLE_trans progLE_total
    intro a b ha hb
    simp only [decide_eq_true_eq] at ha hb
    have : startRaw a = startRaw b := by
      have h1 : (progKey a).2.1 = (progKey b).2.1 := by rw [ha, hb]
      simpa [progKey] using h1
    simp [progLE, this]
  rw [hsorted]
  exact hacc

/-- C6: the Window Filter runs before dedup-key marking: a programme
whose window test evaluates to false leaves the accumulator completely
unchanged - in particular its dedup key is not marked seen and nothing
is suppressed by it - and processing any later candidates after it is
exactly processing them without it, so each later candidate (including
one with the same key) is evaluated against the window independently. -/
theorem window_reject_is_inert (ws we : Int) (acc : Acc) (p : Programme)
    (hfail : windowVerdict ws we p = Except.ok false) :
    processProgramme ws we acc p = Except.ok acc ∧
    ∀ rest : List Programme,
      processProgs ws we acc (p :: rest) = processProgs ws we acc rest := by
  have h1 : processProgramme ws we acc p = Except.ok acc := by
    unfold processProgramme
    rw [hfail]
  refine ⟨h1, fun rest => ?_⟩
  rw [processProgs, h1]

/-- Witness for C6: a programme starting 2025-01-01 against the
degenerate window `[0, 0]` fails the test and is inert; a later
programme is then processed as if the rejected one never existed. -/
theorem window_reject_is_inert_witness :
    processProgramme 0 0 initAcc ⟨some "c", some "20250101000000", none, none, "x"⟩
      = Except.ok initAcc ∧
    processProgs 0 0 initAcc
        [⟨some "c", some "20250101000000", none, none, "x"⟩,
         ⟨some "c", none, none, none, "y"⟩]
      = processProgs 0 0 initAcc [⟨some "c", none, none, none, "y"⟩] :=
  ⟨(window_reject_is_inert 0 0 initAcc ⟨some "c", some "20250101000000", none, none, "x"⟩
      (by rfl)).1,
   (window_reject_is_inert 0 0 initAcc ⟨some "c", some "20250101000000", none, none, "x"⟩
      (by rfl)).2 [⟨some "c", none, none, none, "y"⟩]⟩

/-- Splitting the source loop at an append point. -/
theorem mergeFrom_append (ws we : Int) :
    ∀ (l₁ l₂ : List Source) (acc : Acc),
      mergeFrom ws we acc (l₁ ++ l₂)
        = match mergeFrom ws we acc l₁ with
          | Except.error e => Except.error e
          | Except.ok a => mergeFrom ws we a l₂
  | [], l₂, acc => rfl
  | s :: rest, l₂, acc => by
    rw [List.cons_append, mergeFrom, mergeFrom]
    cases processSource ws we acc s with
    | error e => rfl
    | ok a => exact mergeFrom_append ws we rest l₂ a

/-- A programme step that completed did not raise in
`parse_xmltv_time`. -/
theorem processProgramme_no_error {ws we : Int} {acc acc' : Acc} {p : Programme}
    (h : processProgramme ws we acc p = Except.ok acc') :
    windowVerdict ws we p ≠ Except.error () := by
  unfold processProgramme at h
  split at h
  · exact absurd h (by simp)
  · rename_i hv
    rw [hv]
    simp
  · rename_i hv
    rw [hv]
    simp

/-- A completed programme loop did not raise on any of its
programmes. -/
theorem processProgs_no_error (ws we : Int) :
    ∀ {ps : List Programme} {acc acc' : Acc},
      processProgs ws we acc ps = Except.ok acc' →
      ∀ p ∈ ps, windowVerdict ws we p ≠ Except.error ()
  | [], acc, acc', h => by
    intro p hp
    simp at hp
  | p :: ps, acc, acc', h => by
    rw [processProgs] at h
    split at h
    · exact absurd h (by simp)
    · rename_i acc₁ h₁
      intro q hq
      cases List.mem_cons.mp hq with
      | inl hql => exact hql ▸ processProgramme_no_error h₁
      | inr hqr => exact processProgs_no_error ws we h q hqr

/-- A completed run did not raise on any programme of any parsed
document. -/
theorem mergeFrom_no_error (ws we : Int) :
    ∀ {srcs : List Source} {acc acc' : Acc},
      mergeFrom ws we acc srcs = Except.ok acc' →
      ∀ d ∈ docsOf srcs, ∀ p ∈ d.programmes,
        windowVerdict ws we p ≠ Except.error ()
  | [], acc, acc', h => by
    intro d hd
    simp [docsOf] at hd
  | ⟨url, Except.error e⟩ :: rest, acc, acc', h => by
    rw [mergeFrom] at h
    simp only [processSource] at h
    intro d hd
    exact mergeFrom_no_error ws we h d hd
  | ⟨url, Except.ok doc⟩ :: rest, acc, acc', h => by
    rw [mergeFrom] at h
    simp only [processSource] at h
    split at h
    · exact absurd h (by simp)
    · rename_i accD hD
      rw [processDoc] at hD
      intro d hd
      cases List.mem_cons.mp hd with
      | inl hdl => exact hdl ▸ processProgs_no_error ws we hD
      | inr hdr => exact mergeFrom_no_error ws we h d hdr

/-- A channel whose id is already seen is discarded without any state
change. -/
theorem processChannel_noop {acc : Acc} {ch : Channel}
    (h : chanKey ch ∈ acc.channel_ids_seen) :
    processChannel acc ch = acc := by
  rw [processChannel, if_pos h]

/-- A channel loop over only already-seen ids changes nothing. -/
theorem foldl_processChannel_noop :
    ∀ (cs : List Channel) (acc : Acc),
      (∀ ch ∈ cs, chanKey ch ∈ acc.channel_ids_seen) →
      cs.foldl processChannel acc = acc
  | [], acc, _ => rfl
  | ch :: cs, acc, h => by
    rw [List.foldl_cons, processChannel_noop (h ch (List.mem_cons_self ch cs))]
    exact foldl_processChannel_noop cs acc (fun c hc => h c (List.mem_cons_of_mem ch hc))

/-- A programme that does not raise and whose key is already seen
whenever it passes the window changes nothing. -/
theorem processProgramme_noop {ws we : Int} {acc : Acc} {p : Programme}
    (hne : windowVerdict ws we p ≠ Except.error ())
    (hk : keepTest ws we p = true → progKey p ∈ acc.programme_keys_seen) :
    processProgramme ws we acc p = Except.ok acc := by
  unfold processProgramme
  cases hv : windowVerdict ws we p with
  | error e =>
    cases e
    exact absurd hv hne
  | ok b =>
    cases b
    · rfl
    · have hmem : progKey p ∈ acc.programme_keys_seen := by
        apply hk
        unfold keepTest
        rw [hv]
      rw [if_pos hmem]

/-- A programme loop over only inert programmes changes nothing. -/
theorem processProgs_noop (ws we : Int) :
    ∀ (ps : List Programme) (acc : Acc),
      (∀ p ∈ ps, windowVerdict ws we p ≠ Except.error () ∧
        (keepTest ws we p = true → progKey p ∈ acc.programme_keys_seen)) →
      processProgs ws we acc ps = Except.ok acc
  | [], acc, _ => rfl
  | p :: ps, acc, h => by
    rw [processProgs,
      processProgramme_noop (h p (List.mem_cons_self p ps)).1 (h p (List.mem_cons_self p ps)).2]
    exact processProgs_noop ws we ps acc (fun q hq => h q (List.mem_cons_of_mem p hq))

/-- A document all of whose channels and passing programmes were
already seen is processed without any state change. -/
theorem processDoc_noop {ws we : Int} {acc : Acc} {doc : Doc}
    (hch : ∀ ch ∈ doc.channels, chanKey ch ∈ acc.channel_ids_seen)
    (hpr : ∀ p ∈ doc.programmes, windowVerdict ws we p ≠ Except.error () ∧
      (keepTest ws we p = true → progKey p ∈ acc.programme_keys_seen)) :
    processDoc ws we acc doc = Except.ok acc := by
  rw [processDoc, foldl_processChannel_noop doc.channels acc hch]
  exact processProgs_noop ws we doc.programmes acc hpr

/-- The warnings produced by the failed sources of a list, in order. -/
def failWarnings : List Source → List String
  | [] => []
  | ⟨url, Except.error e⟩ :: rest => warnMsg url e :: failWarnings rest
  | ⟨_, Except.ok _⟩ :: rest => failWarnings rest

/-- Replaying sources against a saturated accumulator (every offered
channel id seen, every passing programme key seen, no raising
programme) changes nothing except appending the failed-source warnings
again. -/
theorem mergeFrom_saturated (ws we : Int) :
    ∀ (srcs : List Source) (acc : Acc),
      (∀ d ∈ docsOf srcs,
        (∀ ch ∈ d.channels, chanKey ch ∈ acc.channel_ids_seen) ∧
        (∀ p ∈ d.programmes, windowVerdict ws we p ≠ Except.error () ∧
          (keepTest ws we p = true → progKey p ∈ acc.programme_keys_seen))) →
      mergeFrom ws we acc srcs
        = Except.ok { acc with warnings := acc.warnings ++ failWarnings srcs }
  | [], acc, _ => by
    simp [mergeFrom, failWarnings]
  | ⟨url, Except.error e⟩ :: rest, acc, h => by
    rw [mergeFrom]
    simp only [processSource]
    have ih := mergeFrom_saturated ws we rest
      { acc with warnings := acc.warnings ++ [warnMsg url e] }
      (by
        intro d hd
        exact h d (by simpa [docsOf] using hd))
    rw [ih]
    simp [failWarnings]
  | ⟨url, Except.ok doc⟩ :: rest, acc, h => by
    rw [mergeFrom]
    simp only [processSource]
    have hdoc := h doc (by simp [docsOf])
    rw [processDoc_noop hdoc.1 hdoc.2]
    have ih := mergeFrom_saturated ws we rest acc
      (by
        intro d hd
        exact h d (by simp [docsOf, hd]))
    dsimp only
    rw [ih]
    rfl

/-- Membership in the flattened channel stream. -/
theorem mem_chansOfDocs {ch : Channel} :
    ∀ {ds : List Doc} {d : Doc}, d ∈ ds → ch ∈ d.channels → ch ∈ chansOfDocs ds
  | d₀ :: ds, d, hd, hc => by
    cases List.mem_cons.mp hd with
    | inl hdl =>
      subst hdl
      exact List.mem_append_left _ hc
    | inr hdr => exact List.mem_append_right _ (mem_chansOfDocs hdr hc)

/-- Membership in the flattened programme stream. -/
theorem mem_progsOfDocs {p : Programme} :
    ∀ {ds : List Doc} {d : Doc}, d ∈ ds → p ∈ d.programmes → p ∈ progsOfDocs ds
  | d₀ :: ds, d, hd, hc => by
    cases List.mem_cons.mp hd with
    | inl hdl =>
      subst hdl
      exact List.mem_append_left _ hc
    | inr hdr => exact List.mem_append_right _ (mem_progsOfDocs hdr hc)

/-- C7: merging the source list twice in one run is idempotent for the
kept channels and programmes: the duplicated run produces exactly the
same channel and programme lists (only the failed-source warnings are
emitted once more), and a run failing with an uncaught exception fails
identically. -/
theorem merge_idempotent (ws we : Int) (srcs : List Source) :
    (runMerge ws we (srcs ++ srcs)).map (fun a => (a.channels, a.programmes))
      = (runMerge ws we srcs).map (fun a => (a.channels, a.programmes)) := by
  rw [runMerge, runMerge, mergeFrom_append]
  cases hrun : mergeFrom ws we initAcc srcs with
  | error e => rfl
  | ok acc =>
    have hchan := mergeFrom_chanInv ws we srcs initAcc acc [] hrun
      (by intro j; rfl) (by intro j; simp [initAcc, chanFilter])
    have hprog := mergeFrom_progInv ws we srcs initAcc acc [] hrun
      (by intro j; rfl) (by intro j; simp [initAcc, progKeepFilter])
    have hnoerr := mergeFrom_no_error ws we hrun
    have hsat := mergeFrom_saturated ws we srcs acc
      (by
        intro d hd
        refine ⟨fun ch hc => ?_, fun p hp => ?_⟩
        · apply (hchan.2 (chanKey ch)).mpr
          apply List.ne_nil_of_mem (a := ch)
          exact List.mem_filter.mpr ⟨mem_chansOfDocs hd hc, by simp⟩
        · refine ⟨hnoerr d hd p hp, fun hkeep => ?_⟩
          apply (hprog.2 (progKey p)).mpr
          apply List.ne_nil_of_mem (a := p)
          exact List.mem_filter.mpr ⟨mem_progsOfDocs hd hp, by simp [hkeep]⟩)
    dsimp only
    rw [hsat]
    rfl

/-- Witness for C4: two sources offering three channels with id `"a"`;
only the first is kept, unchanged. -/
theorem channel_dedup_first_wins_witness :
    (Acc.mk [⟨some "a", "p1"⟩] [] ["a"] [] []).channels.filter
        (fun c => decide (chanKey c = "a"))
      = ((allChannels [("u1", Except.ok (Doc.mk [⟨some "a", "p1"⟩, ⟨some "a", "p2"⟩] [])),
            ("u2", Except.ok (Doc.mk [⟨some "a", "p3"⟩] []))]).filter
          (fun c => decide (chanKey c = "a"))).take 1 ∧
    (sortedChannels (Acc.mk [⟨some "a", "p1"⟩] [] ["a"] [] [])).filter
        (fun c => decide (chanKey c = "a"))
      = ((allChannels [("u1", Except.ok (Doc.mk [⟨some "a", "p1"⟩, ⟨some "a", "p2"⟩] [])),
            ("u2", Except.ok (Doc.mk [⟨some "a", "p3"⟩] []))]).filter
          (fun c => decide (chanKey c = "a"))).take 1 :=
  channel_dedup_first_wins 0 0
    [("u1", Except.ok (Doc.mk [⟨some "a", "p1"⟩, ⟨some "a", "p2"⟩] [])),
     ("u2", Except.ok (Doc.mk [⟨some "a", "p3"⟩] []))]
    (Acc.mk [⟨some "a", "p1"⟩] [] ["a"] [] []) (by rfl) "a"

/-- Witness for C5: one source re-sends the same programme (same raw
key) and also sends an equal-instant programme with differently
formatted timestamps; the duplicate is dropped, the equal-instant
variant has a different key and is kept independently. -/
theorem programme_dedup_first_wins_witness :
    (Acc.mk []
        [⟨some "1", some "20250101000000 +0000", some "20250101010000 +0000", some "X", "s1"⟩,
         ⟨some "1", some "20250101010000 +0100", some "20250101020000 +0100", some "X", "s2"⟩]
        []
        [("1", "20250101010000 +0100", "20250101020000 +0100", "X"),
         ("1", "20250101000000 +0000", "20250101010000 +0000", "X")] []).programmes.filter
        (fun p => decide (progKey p = ("1", "20250101000000 +0000", "20250101010000 +0000", "X")))
      = ((allProgrammes
            [("u", Except.ok (Doc.mk []
              [⟨some "1", some "20250101000000 +0000", some "20250101010000 +0000", some "X", "s1"⟩,
               ⟨some "1", some "20250101010000 +0100", some "20250101020000 +0100", some "X", "s2"⟩,
               ⟨some "1", some "20250101000000 +0000", some "20250101010000 +0000", some "X", "s1dup"⟩]))]).filter
          (fun p => decide (progKey p = ("1", "20250101000000 +0000", "20250101010000 +0000", "X"))
            && keepTest (toInstant 2024 12 31 0 0 0) (toInstant 2025 1 2 0 0 0) p)).take 1 ∧
    (sortedProgrammes (Acc.mk []
        [⟨some "1", some "20250101000000 +0000", some "20250101010000 +0000", some "X", "s1"⟩,
         ⟨some "1", some "20250101010000 +0100", some "20250101020000 +0100", some "X", "s2"⟩]
        []
        [("1", "20250101010000 +0100", "20250101020000 +0100", "X"),
         ("1", "20250101000000 +0000", "20250101010000 +0000", "X")] [])).filter
        (fun p => decide (progKey p = ("1", "20250101000000 +0000", "20250101010000 +0000", "X")))
      = ((allProgrammes
            [("u", Except.ok (Doc.mk []
              [⟨some "1", some "20250101000000 +0000", some "20250101010000 +0000", some "X", "s1"⟩,
               ⟨some "1", some "20250101010000 +0100", some "20250101020000 +0100", some "X", "s2"⟩,
               ⟨some "1", some "20250101000000 +0000", some "20250101010000 +0000", some "X", "s1dup"⟩]))]).filter
          (fun p => decide (progKey p = ("1", "20250101000000 +0000", "20250101010000 +0000", "X"))
            && keepTest (toInstant 2024 12 31 0 0 0) (toInstant 2025 1 2 0 0 0) p)).take 1 :=
  programme_dedup_first_wins (toInstant 2024 12 31 0 0 0) (toInstant 2025 1 2 0 0 0)
    [("u", Except.ok (Doc.mk []
      [⟨some "1", some "20250101000000 +0000", some "20250101010000 +0000", some "X", "s1"⟩,
       ⟨some "1", some "20250101010000 +0100", some "20250101020000 +0100", some "X", "s2"⟩,
       ⟨some "1", some "20250101000000 +0000", some "20250101010000 +0000", some "X", "s1dup"⟩]))]
    (Acc.mk []
      [⟨some "1", some "20250101000000 +0000", some "20250101010000 +0000", some "X", "s1"⟩,
       ⟨some "1", some "20250101010000 +0100", some "20250101020000 +0100", some "X", "s2"⟩]
      []
      [("1", "20250101010000 +0100", "20250101020000 +0100", "X"),
       ("1", "20250101000000 +0000", "20250101010000 +0000", "X")] [])
    (by rfl)
    ("1", "20250101000000 +0000", "20250101010000 +0000", "X")

/-- C8: the Canonicalizer emits all channel elements followed by all
programme elements; channels are a permutation of the accumulated
channels sorted by effective id ascending (lexicographic string order,
so an empty id sorts first) and programmes a permutation of the
accumulated programmes sorted by raw start string ascending (not by
parsed instant); both sorts are stable: the elements sharing any sort
key keep their accumulator (source/document) order.  In particular
channels accumulated with ids `["", "B", "A", "B"]` are emitted as
`["", "A", "B", "B"]` with the two `"B"` entries in their original
relative order. -/
theorem canonicalizer_sorted_stable :
    (∀ acc : Acc,
      canonicalize acc
        = (sortedChannels acc).map TvElem.ch ++ (sortedProgrammes acc).map TvElem.pr ∧
      List.Perm (sortedChannels acc) acc.channels ∧
      (sortedChannels acc).Pairwise (fun a b => chanKey a ≤ chanKey b) ∧
      (∀ i : String, (sortedChannels acc).filter (fun c => decide (chanKey c = i))
          = acc.channels.filter (fun c => decide (chanKey c = i))) ∧
      List.Perm (sortedProgrammes acc) acc.programmes ∧
      (sortedProgrammes acc).Pairwise (fun a b => startRaw a ≤ startRaw b) ∧
      (∀ r : String, (sortedProgrammes acc).filter (fun p => decide (startRaw p = r))
          = acc.programmes.filter (fun p => decide (startRaw p = r)))) ∧
    sortedChannels
        ⟨[⟨some "", "e0"⟩, ⟨some "B", "e1"⟩, ⟨some "A", "e2"⟩, ⟨some "B", "e3"⟩],
         [], [], [], []⟩
      = [⟨some "", "e0"⟩, ⟨some "A", "e2"⟩, ⟨some "B", "e1"⟩, ⟨some "B", "e3"⟩] := by
  constructor
  · intro acc
    refine ⟨rfl, List.mergeSort_perm acc.channels chanLE, ?_, ?_,
      List.mergeSort_perm acc.programmes progLE, ?_, ?_⟩
    · exact (List.sorted_mergeSort chanLE_trans chanLE_total acc.channels).imp
        (fun h => of_decide_eq_true h)
    · intro i
      apply filter_mergeSort_eq chanLE chanLE_trans chanLE_total
      intro a b ha hb
      simp only [decide_eq_true_eq] at ha hb
      simp [chanLE, ha, hb]
    · exact (List.sorted_mergeSort progLE_trans progLE_total acc.programmes).imp
        (fun h => of_decide_eq_true h)
    · intro r
      apply filter_mergeSort_eq progLE progLE_trans progLE_total
      intro a b ha hb
      simp only [decide_eq_true_eq] at ha hb
      simp [progLE, ha, hb]
  · simp +decide [sortedChannels, List.mergeSort, List.splitInTwo, List.splitAt,
      List.splitAt.go, List.merge, chanLE, chanKey]

/-- C9: a source whose fetch, decompression or document parse fails is
absorbed by the per-source handler: the step returns normally (never
aborts the run), records exactly one warning naming that source, leaves
the accumulated channels, programmes and seen-sets untouched, and the
loop continues with the remaining sources from that state. -/
theorem source_failure_skipped (ws we : Int) (acc : Acc) (url emsg : String) :
    processSource ws we acc (url, Except.error emsg)
      = Except.ok { acc with warnings := acc.warnings ++ [warnMsg url emsg] } ∧
    ({ acc with warnings := acc.warnings ++ [warnMsg url emsg] } : Acc).channels
      = acc.channels ∧
    ({ acc with warnings := acc.warnings ++ [warnMsg url emsg] } : Acc).programmes
      = acc.programmes ∧
    ({ acc with warnings := acc.warnings ++ [warnMsg url emsg] } : Acc).channel_ids_seen
      = acc.channel_ids_seen ∧
    ({ acc with warnings := acc.warnings ++ [warnMsg url emsg] } : Acc).programme_keys_seen
      = acc.programme_keys_seen ∧
    ∀ rest : List Source,
      mergeFrom ws we acc ((url, Except.error emsg) :: rest)
        = mergeFrom ws we { acc with warnings := acc.warnings ++ [warnMsg url emsg] } rest :=
  ⟨rfl, rfl, rfl, rfl, rfl, fun _ => rfl⟩

end MergeEpg
